import Mathlib

/-!
Verification of the compact serializer in src/serialize.ts.

The codec is embedded shallowly:
* JS strings of '0'/'1' characters (the intermediate bit strings) become
  List Bool (true = '1').
* The final symbol strings become List Char over the 64-character alphabet.
* JS numbers are embedded as Int on the encode side (inputs may be out of
  range) and decoded values are returned as Int.
* Functions that throw become Except CodecError.
-/

/-- The error kinds thrown by serialize/deserialize.
* rangeError: "Все числа должны быть в диапазоне 1-300" (serialize, line 44)
* unsupportedBits: "Неподдерживаемое количество бит для числа" (serialize, line 58)
* invalidCharacter: "Неверный символ в строке: ..." (deserialize, line 98)
* invalidWidthCode: "Неверный код битовой длины" (deserialize, line 120) -/
inductive CodecError where
  | rangeError
  | unsupportedBits
  | invalidCharacter (c : Char)
  | invalidWidthCode
deriving DecidableEq, Repr

deriving instance DecidableEq for Except

/-- Line 16: the fixed 64-symbol alphabet. -/
def BASE64_CHARS : List Char :=
  String.data "ABCDEFGHIJKLMNOPQRSTUVWXYZabcdefghijklmnopqrstuvwxyz0123456789+/"

/-- One step of `parseInt(chunk, 2)`: shift the accumulator and add one bit. -/
def bitStep (acc : Nat) (b : Bool) : Nat := 2 * acc + (if b then 1 else 0)

/-- `parseInt(bits, 2)` on a (most-significant-first) bit string. -/
def bitsToNat (bits : List Bool) : Nat := bits.foldl bitStep 0

/-- The digit loop of `num.toString(2)` (repeatedly divide by 2, emit
remainders most-significant-first).  The loop is embedded with an explicit
fuel argument; `fuel = n` always suffices because the argument at least
halves at every step. -/
def natToBitsAux : Nat → Nat → List Bool
  | _, 0 => []
  | 0, _ + 1 => []
  | fuel + 1, n + 1 => natToBitsAux fuel ((n + 1) / 2) ++ [(n + 1) % 2 == 1]

/-- `num.toString(2)` for a natural number: binary digits, no leading zeros,
and `(0).toString(2) = "0"`. -/
def natToBits (n : Nat) : List Bool :=
  if n = 0 then [false] else natToBitsAux n n

/-- `str.padStart(w, "0")`: left-pad with zero bits up to length `w`
(a longer string is returned unchanged). -/
def padStart (bits : List Bool) (w : Nat) : List Bool :=
  List.replicate (w - bits.length) false ++ bits

/-- Lines 25-30: `determineBitsPerNumber`.  `Math.max(...numbers)` of an
empty array is -Infinity, which is below both thresholds, hence the `none`
branch returns 4. -/
def determineBitsPerNumber (numbers : List Int) : Nat :=
  match numbers.max? with
  | none => 4
  | some max => if max < 10 then 4 else if max < 100 then 7 else 9

/-- Lines 54-58: the 2-bit width code for a chosen bitsPerNumber
(00 - 4 bits, 01 - 7 bits, 10 - 9 bits), otherwise the
"Неподдерживаемое количество бит" error. -/
def bitsCodeFor (bitsPerNumber : Nat) : Except CodecError (List Bool) :=
  if bitsPerNumber = 4 then .ok [false, false]
  else if bitsPerNumber = 7 then .ok [false, true]
  else if bitsPerNumber = 9 then .ok [true, false]
  else .error .unsupportedBits

/-- Lines 79-85: the packing loop.  Each 6-bit group (the final group may be
shorter when the input length is not a multiple of 6, matching `substr`)
is converted with `parseInt(chunk, 2)` and looked up in BASE64_CHARS.
The index of a group of at most 6 bits is below 64, so the lookup never
falls off the alphabet; `getD` supplies a dummy default for totality. -/
def toBase64 : List Bool → List Char
  | [] => []
  | b1 :: b2 :: b3 :: b4 :: b5 :: b6 :: rest =>
      BASE64_CHARS.getD (bitsToNat [b1, b2, b3, b4, b5, b6]) 'A' :: toBase64 rest
  | l => [BASE64_CHARS.getD (bitsToNat l) 'A']

/-- Lines 42-87: `serialize`. -/
def serialize (numbers : List Int) : Except CodecError (List Char) :=
  if numbers.any (fun num => decide (num < 1) || decide (300 < num)) then
    .error .rangeError
  else
    let bitsPerNumber := determineBitsPerNumber numbers
    match bitsCodeFor bitsPerNumber with
    | .error e => .error e
    | .ok bitsCode =>
        let header :=
          if numbers.length < 64 then
            false :: padStart (natToBits numbers.length) 6
          else
            true :: padStart (natToBits numbers.length) 10
        let bitStr :=
          header ++ bitsCode ++
            (numbers.map (fun num => padStart (natToBits num.toNat) bitsPerNumber)).flatten
        let padding := (6 - bitStr.length % 6) % 6
        .ok (toBase64 (bitStr ++ List.replicate padding false))

/-- Line 97: `BASE64_CHARS.indexOf(ch)`, with `none` for JS's -1. -/
def charIndex (ch : Char) : List Char → Option Nat
  | [] => none
  | c :: rest => if c = ch then some 0 else (charIndex ch rest).map (· + 1)

/-- Lines 95-100: the unpacking loop of `deserialize`: each character is
looked up in the alphabet (an unknown character aborts with
invalidCharacter) and expanded to its 6-bit group. -/
def expandChars : List Char → Except CodecError (List Bool)
  | [] => .ok []
  | ch :: rest =>
    match charIndex ch BASE64_CHARS with
    | none => .error (.invalidCharacter ch)
    | some index => (expandChars rest).map (fun bits => padStart (natToBits index) 6 ++ bits)

/-- Lines 116-120: decoding of the 2-bit width code. -/
def widthOfCode (bitsCode : List Bool) : Except CodecError Nat :=
  if bitsCode = [false, false] then .ok 4
  else if bitsCode = [false, true] then .ok 7
  else if bitsCode = [true, false] then .ok 9
  else .error .invalidWidthCode

/-- Lines 122-128: the element loop of `deserialize`: `count` numbers, each
taken as `bitsPerNumber` bits starting at the cursor `pos`.
(JS note: when the cursor has run past the end of the string the chunk is
empty and `parseInt("", 2)` is NaN; this model yields 0 there.  Every
theorem below either stays within positions where the chunk is non-empty
or only uses the length of the result, which is `count` in both cases.) -/
def readNumbers (bitStr : List Bool) (bitsPerNumber : Nat) : Nat → Nat → List Int
  | _, 0 => []
  | pos, count + 1 =>
      (bitsToNat ((bitStr.drop pos).take bitsPerNumber) : Nat) ::
        readNumbers bitStr bitsPerNumber (pos + bitsPerNumber) count

/-- Lines 102-129: the header parse and element loop of `deserialize`,
acting on the reconstructed bit string.  The source advances a cursor:
pos 0 is the flag; on flag '0' the count is bits 1-6 and the width code
bits 7-8, so the elements start at pos 9; otherwise the count is bits 1-10
and the width code bits 11-12, so the elements start at pos 13.  An empty
bit string has no character at position 0, and `undefined === "0"` is
false, so the empty case takes the else branch exactly as in JS. -/
def deserializeBits (bitStr : List Bool) : Except CodecError (List Int) :=
  if bitStr.head? = some false then
    match widthOfCode ((bitStr.drop 7).take 2) with
    | .error e => .error e
    | .ok bitsPerNumber =>
        .ok (readNumbers bitStr bitsPerNumber 9 (bitsToNat ((bitStr.drop 1).take 6)))
  else
    match widthOfCode ((bitStr.drop 11).take 2) with
    | .error e => .error e
    | .ok bitsPerNumber =>
        .ok (readNumbers bitStr bitsPerNumber 13 (bitsToNat ((bitStr.drop 1).take 10)))

/-- Lines 94-130: `deserialize`. -/
def deserialize (serialized : List Char) : Except CodecError (List Int) :=
  match expandChars serialized with
  | .error e => .error e
  | .ok bitStr => deserializeBits bitStr

/-! ### Arithmetic of bit strings -/

theorem foldl_bitStep (l : List Bool) :
    ∀ a : Nat, l.foldl bitStep a = a * 2 ^ l.length + bitsToNat l := by
  induction l with
  | nil => intro a; simp [bitsToNat]
  | cons b l ih =>
      intro a
      have hb : bitsToNat (b :: l) = bitStep 0 b * 2 ^ l.length + bitsToNat l := by
        simpa [bitsToNat] using ih (bitStep 0 b)
      simp only [List.foldl_cons, List.length_cons, hb, ih (bitStep a b)]
      simp [bitStep, pow_succ]
      ring_nf
      cases b
      all_goals simp
      all_goals try ring

theorem bitsToNat_lt (l : List Bool) : bitsToNat l < 2 ^ l.length := by
  induction l with
  | nil => simp [bitsToNat]
  | cons b l ih =>
      have hb : bitsToNat (b :: l) = bitStep 0 b * 2 ^ l.length + bitsToNat l := by
        simpa [bitsToNat] using foldl_bitStep l (bitStep 0 b)
      have hstep : bitStep 0 b ≤ 1 := by cases b <;> simp [bitStep]
      have h2 : bitStep 0 b * 2 ^ l.length ≤ 2 ^ l.length :=
        le_trans (Nat.mul_le_mul_right _ hstep) (by simp)
      calc bitsToNat (b :: l) ≤ 2 ^ l.length + bitsToNat l := by omega
      _ < 2 ^ l.length + 2 ^ l.length := by omega
      _ = 2 ^ (b :: l).length := by simp [pow_succ]; ring

theorem bitsToNat_append (l₁ l₂ : List Bool) :
    bitsToNat (l₁ ++ l₂) = bitsToNat l₁ * 2 ^ l₂.length + bitsToNat l₂ := by
  simp only [bitsToNat, List.foldl_append]
  simpa using foldl_bitStep l₂ (l₁.foldl bitStep 0)

theorem bitsToNat_replicate_false (k : Nat) :
    bitsToNat (List.replicate k false) = 0 := by
  induction k with
  | zero => simp [bitsToNat]
  | succ k ih =>
      simpa [List.replicate_succ, bitsToNat, bitStep] using ih

theorem bitsToNat_padStart (l : List Bool) (w : Nat) :
    bitsToNat (padStart l w) = bitsToNat l := by
  simp [padStart, bitsToNat_append, bitsToNat_replicate_false]

theorem padStart_length (l : List Bool) (w : Nat) :
    (padStart l w).length = max w l.length := by
  simp [padStart]
  omega

theorem bitsToNat_natToBitsAux :
    ∀ fuel n, n ≤ fuel → bitsToNat (natToBitsAux fuel n) = n := by
  intro fuel
  induction fuel with
  | zero =>
      intro n hn
      interval_cases n
      simp [natToBitsAux, bitsToNat]
  | succ fuel ih =>
      intro n hn
      match n with
      | 0 => simp [natToBitsAux, bitsToNat]
      | m + 1 =>
          have hrec : (m + 1) / 2 ≤ fuel := by omega
          have := ih ((m + 1) / 2) hrec
          simp only [natToBitsAux, bitsToNat_append, this]
          have : bitsToNat [(m + 1) % 2 == 1] = (m + 1) % 2 := by
            rcases Nat.mod_two_eq_zero_or_one (m + 1) with h | h <;>
              simp [h, bitsToNat, bitStep]
          simp only [this, List.length_singleton, pow_one]
          omega

theorem natToBitsAux_length_le :
    ∀ fuel n w, n ≤ fuel → n < 2 ^ w → (natToBitsAux fuel n).length ≤ w := by
  intro fuel
  induction fuel with
  | zero =>
      intro n w hn _
      interval_cases n
      simp [natToBitsAux]
  | succ fuel ih =>
      intro n w hn hw
      match n with
      | 0 => simp [natToBitsAux]
      | m + 1 =>
          have hwpos : w ≠ 0 := by
            intro h
            rw [h] at hw
            omega
          obtain ⟨w₂, rfl⟩ := Nat.exists_eq_succ_of_ne_zero hwpos
          have hhalf : (m + 1) / 2 < 2 ^ w₂ := by
            have : m + 1 < 2 ^ w₂ * 2 := by
              rw [pow_succ] at hw
              omega
            exact Nat.div_lt_of_lt_mul (by omega)
          have hfuel : (m + 1) / 2 ≤ fuel := by omega
          have := ih ((m + 1) / 2) w₂ hfuel hhalf
          simp only [natToBitsAux, List.length_append, List.length_singleton]
          omega

theorem bitsToNat_natToBits (n : Nat) : bitsToNat (natToBits n) = n := by
  by_cases h : n = 0
  · simp [h, natToBits, bitsToNat, bitStep]
  · simp only [natToBits, if_neg h]
    exact bitsToNat_natToBitsAux n n le_rfl

theorem natToBits_length_le {n w : Nat} (hw : 1 ≤ w) (hn : n < 2 ^ w) :
    (natToBits n).length ≤ w := by
  by_cases h : n = 0
  · simp [h, natToBits]
    omega
  · simp only [natToBits, if_neg h]
    exact natToBitsAux_length_le n n w le_rfl hn

theorem padStart_natToBits_length {n w : Nat} (hw : 1 ≤ w) (hn : n < 2 ^ w) :
    (padStart (natToBits n) w).length = w := by
  rw [padStart_length]
  have := natToBits_length_le hw hn
  omega

theorem bitsToNat_padStart_natToBits (n w : Nat) :
    bitsToNat (padStart (natToBits n) w) = n := by
  rw [bitsToNat_padStart, bitsToNat_natToBits]

/-! ### The alphabet and the 6-bit packer -/

theorem le_max?_of_mem :
    ∀ {l : List Int} {x m : Int}, x ∈ l → l.max? = some m → x ≤ m := by
  intro l
  induction l with
  | nil => intro x m hx; simp at hx
  | cons a l ih =>
      intro x m hx hm
      rw [List.max?_cons] at hm
      cases hl : l.max? with
      | none =>
          have : l = [] := List.max?_eq_none_iff.mp hl
          subst this
          simp at hx hm
          subst hx
          simp [hm]
      | some m2 =>
          rw [hl] at hm
          simp only [Option.elim_some, Option.some.injEq] at hm
          subst hm
          rcases List.mem_cons.mp hx with rfl | hx
          · exact le_max_left _ _
          · exact le_trans (ih hx hl) (le_max_right _ _)

theorem max?_replicate_succ (k : Nat) (x : Int) :
    (List.replicate (k + 1) x).max? = some x := by
  induction k with
  | zero => simp [List.max?_cons]
  | succ k ih =>
      rw [List.replicate_succ, List.max?_cons, ih]
      simp

theorem charIndex_getD :
    ∀ v : Nat, v < 64 → charIndex (BASE64_CHARS.getD v 'A') BASE64_CHARS = some v := by
  decide

theorem getD_mem_BASE64 : ∀ v : Nat, v < 64 → BASE64_CHARS.getD v 'A' ∈ BASE64_CHARS := by
  decide

theorem padStart_six :
    ∀ b1 b2 b3 b4 b5 b6 : Bool,
      padStart (natToBits (bitsToNat [b1, b2, b3, b4, b5, b6])) 6 = [b1, b2, b3, b4, b5, b6] := by
  decide

theorem bitsToNat_lt_64 {l : List Bool} (h : l.length ≤ 6) : bitsToNat l < 64 := by
  have h1 := bitsToNat_lt l
  have h2 : 2 ^ l.length ≤ 2 ^ 6 := Nat.pow_le_pow_right (by omega) h
  omega

theorem short_of_not_cons6 (l : List Bool) (h0 : l = [] → False)
    (h6 : ∀ (b1 b2 b3 b4 b5 b6 : Bool) (rest : List Bool),
      l = b1 :: b2 :: b3 :: b4 :: b5 :: b6 :: rest → False) :
    1 ≤ l.length ∧ l.length ≤ 5 := by
  rcases l with _ | ⟨a, _ | ⟨b, _ | ⟨c, _ | ⟨d, _ | ⟨e, _ | ⟨f, rest⟩⟩⟩⟩⟩⟩
  · cases h0 rfl
  · simp
  · simp
  · simp
  · simp
  · simp
  · cases h6 a b c d e f rest rfl

theorem expandChars_toBase64 :
    ∀ l : List Bool, l.length % 6 = 0 → expandChars (toBase64 l) = .ok l := by
  intro l
  induction l using toBase64.induct with
  | case1 => intro _; simp [toBase64, expandChars]
  | case2 b1 b2 b3 b4 b5 b6 rest ih =>
      intro hl
      have hrest : rest.length % 6 = 0 := by
        simp only [List.length_cons] at hl
        omega
      have hv : bitsToNat [b1, b2, b3, b4, b5, b6] < 64 := bitsToNat_lt_64 (by simp)
      have hidx := charIndex_getD (bitsToNat [b1, b2, b3, b4, b5, b6]) hv
      simp only [toBase64, expandChars, hidx, ih hrest, Except.map]
      simp [padStart_six b1 b2 b3 b4 b5 b6]
  | case3 l h0 h6 =>
      intro hl
      have := short_of_not_cons6 l h0 h6
      omega

theorem toBase64_subset :
    ∀ l : List Bool, ∀ c ∈ toBase64 l, c ∈ BASE64_CHARS := by
  intro l
  induction l using toBase64.induct with
  | case1 => simp [toBase64]
  | case2 b1 b2 b3 b4 b5 b6 rest ih =>
      intro c hc
      simp only [toBase64, List.mem_cons] at hc
      rcases hc with rfl | hc
      · exact getD_mem_BASE64 _ (bitsToNat_lt_64 (by simp))
      · exact ih c hc
  | case3 l h0 h6 =>
      intro c hc
      have hlen := short_of_not_cons6 l h0 h6
      rcases l with _ | ⟨a, _ | ⟨b2, _ | ⟨b3, _ | ⟨b4, _ | ⟨b5, _ | ⟨b6, rest⟩⟩⟩⟩⟩⟩
      · cases h0 rfl
      all_goals try (
        simp only [toBase64, List.mem_singleton] at hc
        subst hc
        exact getD_mem_BASE64 _ (bitsToNat_lt_64 (by simp)))
      cases h6 a b2 b3 b4 b5 b6 rest rfl

theorem toBase64_length :
    ∀ l : List Bool, l.length % 6 = 0 → (toBase64 l).length = l.length / 6 := by
  intro l
  induction l using toBase64.induct with
  | case1 => intro _; simp [toBase64]
  | case2 b1 b2 b3 b4 b5 b6 rest ih =>
      intro hl
      have hrest : rest.length % 6 = 0 := by
        simp only [List.length_cons] at hl
        omega
      simp only [toBase64, List.length_cons, ih hrest]
      omega
  | case3 l h0 h6 =>
      intro hl
      have := short_of_not_cons6 l h0 h6
      omega

/-! ### The width selector and the encode side -/

theorem det_cases (l : List Int) :
    determineBitsPerNumber l = 4 ∨ determineBitsPerNumber l = 7 ∨
      determineBitsPerNumber l = 9 := by
  unfold determineBitsPerNumber
  cases l.max? with
  | none => simp
  | some m =>
      by_cases h10 : m < 10
      · simp [h10]
      · by_cases h100 : m < 100 <;> simp [h10, h100]

theorem det_pos (l : List Int) : 1 ≤ determineBitsPerNumber l := by
  rcases det_cases l with h | h | h <;> omega

theorem elem_lt_pow (S : List Int) (hval : ∀ x ∈ S, 1 ≤ x ∧ x ≤ 300) :
    ∀ x ∈ S, x.toNat < 2 ^ determineBitsPerNumber S := by
  intro x hx
  have hxv := hval x hx
  cases hm : S.max? with
  | none =>
      have : S = [] := List.max?_eq_none_iff.mp hm
      subst this
      simp at hx
  | some m =>
      have hxm : x ≤ m := le_max?_of_mem hx hm
      simp only [determineBitsPerNumber, hm]
      by_cases h10 : m < 10
      · simp only [if_pos h10]
        norm_num
        omega
      · by_cases h100 : m < 100
        · simp only [if_neg h10, if_pos h100]
          norm_num
          omega
        · simp only [if_neg h10, if_neg h100]
          norm_num
          omega

theorem any_out_of_range_eq_false (S : List Int) (hval : ∀ x ∈ S, 1 ≤ x ∧ x ≤ 300) :
    (S.any fun num => decide (num < 1) || decide (300 < num)) = false := by
  simp only [List.any_eq_false, Bool.or_eq_true, decide_eq_true_eq, not_or]
  intro x hx
  have := hval x hx
  omega

theorem bitsCodeFor_det (S : List Int) :
    ∃ code, bitsCodeFor (determineBitsPerNumber S) = .ok code ∧
      widthOfCode code = .ok (determineBitsPerNumber S) ∧ code.length = 2 ∧
      (code = [false, false] ∨ code = [false, true] ∨ code = [true, false]) := by
  rcases det_cases S with h | h | h
  · exact ⟨[false, false], by rw [h]; decide, by rw [h]; decide, rfl, by simp⟩
  · exact ⟨[false, true], by rw [h]; decide, by rw [h]; decide, rfl, by simp⟩
  · exact ⟨[true, false], by rw [h]; decide, by rw [h]; decide, rfl, by simp⟩

theorem serialize_eq (numbers : List Int) (hval : ∀ x ∈ numbers, 1 ≤ x ∧ x ≤ 300)
    {code : List Bool} (hcode : bitsCodeFor (determineBitsPerNumber numbers) = .ok code)
    (bitStr : List Bool)
    (hbits : bitStr =
      (if numbers.length < 64 then false :: padStart (natToBits numbers.length) 6
        else true :: padStart (natToBits numbers.length) 10) ++ code ++
        (numbers.map
          (fun num => padStart (natToBits num.toNat) (determineBitsPerNumber numbers))).flatten) :
    serialize numbers =
      .ok (toBase64 (bitStr ++ List.replicate ((6 - bitStr.length % 6) % 6) false)) := by
  subst hbits
  simp only [serialize, any_out_of_range_eq_false numbers hval, hcode]
  simp

/-! ### The bit reader -/

theorem readNumbers_length (bitStr : List Bool) (w : Nat) :
    ∀ (count pos : Nat), (readNumbers bitStr w pos count).length = count := by
  intro count
  induction count with
  | zero => intro pos; simp [readNumbers]
  | succ count ih => intro pos; simp [readNumbers, ih]

theorem readNumbers_spec :
    ∀ (S : List Int) (bitStr junk : List Bool) (w pos : Nat),
      1 ≤ w → (∀ x ∈ S, 1 ≤ x ∧ x.toNat < 2 ^ w) →
      bitStr.drop pos = (S.map (fun num => padStart (natToBits num.toNat) w)).flatten ++ junk →
      readNumbers bitStr w pos S.length = S := by
  intro S
  induction S with
  | nil => intro bitStr junk w pos _ _ _; simp [readNumbers]
  | cons x S ih =>
      intro bitStr junk w pos hw hval hdrop
      have hx := hval x (List.mem_cons_self x S)
      have henc_len : (padStart (natToBits x.toNat) w).length = w :=
        padStart_natToBits_length hw hx.2
      simp only [List.map_cons, List.flatten_cons, List.append_assoc] at hdrop
      have htake : (bitStr.drop pos).take w = padStart (natToBits x.toNat) w := by
        rw [hdrop]
        exact List.take_left' henc_len
      have hdrop2 : bitStr.drop (pos + w) =
          (S.map (fun num => padStart (natToBits num.toNat) w)).flatten ++ junk := by
        rw [(List.drop_drop w pos bitStr).symm, hdrop]
        exact List.drop_left' henc_len
      simp only [List.length_cons, readNumbers, htake, bitsToNat_padStart, bitsToNat_natToBits]
      rw [ih bitStr junk w (pos + w) hw (fun y hy => hval y (List.mem_cons_of_mem x hy)) hdrop2]
      rw [Int.toNat_of_nonneg (by omega : (0:Int) ≤ x)]

theorem deserializeBits_flag0 (S : List Int) (w : Nat)
    (count6 code body junk : List Bool)
    (hc6 : count6.length = 6) (hcode2 : code.length = 2)
    (hwidth : widthOfCode code = .ok w) (hcount : bitsToNat count6 = S.length)
    (hw : 1 ≤ w) (hval : ∀ x ∈ S, 1 ≤ x ∧ x.toNat < 2 ^ w)
    (hbody : body = (S.map (fun num => padStart (natToBits num.toNat) w)).flatten) :
    deserializeBits (false :: (count6 ++ (code ++ (body ++ junk)))) = .ok S := by
  have hdrop1 : (false :: (count6 ++ (code ++ (body ++ junk)))).drop 1 =
      count6 ++ (code ++ (body ++ junk)) := rfl
  have hdrop7 : (false :: (count6 ++ (code ++ (body ++ junk)))).drop 7 =
      code ++ (body ++ junk) := by
    rw [List.drop_succ_cons]
    exact List.drop_left' hc6
  have hdrop9 : (false :: (count6 ++ (code ++ (body ++ junk)))).drop 9 =
      body ++ junk := by
    have h9 : (9 : Nat) = 7 + 2 := rfl
    rw [h9, (List.drop_drop 2 7 _).symm, hdrop7]
    exact List.drop_left' hcode2
  have hread : readNumbers (false :: (count6 ++ (code ++ (body ++ junk)))) w 9 S.length = S := by
    apply readNumbers_spec S _ junk w 9 hw hval
    rw [hdrop9, hbody]
  simp only [deserializeBits, List.head?_cons, if_pos rfl, hdrop7,
    List.take_left' hcode2, hwidth, hdrop1, List.take_left' hc6, hcount, hread]
  simp

theorem deserializeBits_flag1 (S : List Int) (w : Nat)
    (count10 code body junk : List Bool)
    (hc10 : count10.length = 10) (hcode2 : code.length = 2)
    (hwidth : widthOfCode code = .ok w) (hcount : bitsToNat count10 = S.length)
    (hw : 1 ≤ w) (hval : ∀ x ∈ S, 1 ≤ x ∧ x.toNat < 2 ^ w)
    (hbody : body = (S.map (fun num => padStart (natToBits num.toNat) w)).flatten) :
    deserializeBits (true :: (count10 ++ (code ++ (body ++ junk)))) = .ok S := by
  have hdrop1 : (true :: (count10 ++ (code ++ (body ++ junk)))).drop 1 =
      count10 ++ (code ++ (body ++ junk)) := rfl
  have hdrop11 : (true :: (count10 ++ (code ++ (body ++ junk)))).drop 11 =
      code ++ (body ++ junk) := by
    rw [List.drop_succ_cons]
    exact List.drop_left' hc10
  have hdrop13 : (true :: (count10 ++ (code ++ (body ++ junk)))).drop 13 =
      body ++ junk := by
    have h13 : (13 : Nat) = 11 + 2 := rfl
    rw [h13, (List.drop_drop 2 11 _).symm, hdrop11]
    exact List.drop_left' hcode2
  have hread : readNumbers (true :: (count10 ++ (code ++ (body ++ junk)))) w 13 S.length = S := by
    apply readNumbers_spec S _ junk w 13 hw hval
    rw [hdrop13, hbody]
  have hhead : ¬ (true :: (count10 ++ (code ++ (body ++ junk)))).head? = some false := by
    simp
  simp only [deserializeBits, if_neg hhead, hdrop11,
    List.take_left' hcode2, hwidth, hdrop1, List.take_left' hc10, hcount, hread]

/-! ### The round trip for sequences of at most 1023 elements -/

theorem roundtrip_core (S : List Int) (hval : ∀ x ∈ S, 1 ≤ x ∧ x ≤ 300)
    (hlen : S.length ≤ 1023) :
    ∃ out bits, serialize S = .ok out ∧ expandChars out = .ok bits ∧
      (S.length < 64 →
        bits.head? = some false ∧ bitsToNat ((bits.drop 1).take 6) = S.length) ∧
      (¬ S.length < 64 →
        bits.head? = some true ∧ bitsToNat ((bits.drop 1).take 10) = S.length) ∧
      deserializeBits bits = .ok S ∧ deserialize out = .ok S := by
  obtain ⟨code, hcode, hwidth, hcodelen, _⟩ := bitsCodeFor_det S
  have hw1 : 1 ≤ determineBitsPerNumber S := det_pos S
  have hxw : ∀ x ∈ S, 1 ≤ x ∧ x.toNat < 2 ^ determineBitsPerNumber S :=
    fun x hx => ⟨(hval x hx).1, elem_lt_pow S hval x hx⟩
  set w := determineBitsPerNumber S with hwdef
  set body := (S.map (fun num => padStart (natToBits num.toNat) w)).flatten with hbodydef
  by_cases h64 : S.length < 64
  · have hn : S.length < 2 ^ 6 := by norm_num; omega
    have hp6 : (padStart (natToBits S.length) 6).length = 6 :=
      padStart_natToBits_length (by norm_num) hn
    set count6 := padStart (natToBits S.length) 6 with hc6def
    set bitStr := (false :: count6) ++ code ++ body with hbsdef
    set pad := (6 - bitStr.length % 6) % 6 with hpaddef
    have hser : serialize S = .ok (toBase64 (bitStr ++ List.replicate pad false)) := by
      apply serialize_eq S hval hcode
      rw [if_pos h64]
    have hshape : bitStr ++ List.replicate pad false =
        false :: (count6 ++ (code ++ (body ++ List.replicate pad false))) := by
      simp [hbsdef, List.append_assoc]
    have hmod : (bitStr ++ List.replicate pad false).length % 6 = 0 := by
      simp only [List.length_append, List.length_replicate]
      omega
    have hexp : expandChars (toBase64 (bitStr ++ List.replicate pad false)) =
        .ok (bitStr ++ List.replicate pad false) := expandChars_toBase64 _ hmod
    have hdeser : deserializeBits (bitStr ++ List.replicate pad false) = .ok S := by
      rw [hshape]
      exact deserializeBits_flag0 S w count6 code body _ hp6 hcodelen hwidth
        (bitsToNat_padStart_natToBits _ _) hw1 hxw hbodydef
    have hhead : (bitStr ++ List.replicate pad false).head? = some false := by
      rw [hshape]
      rfl
    have hcount6 : bitsToNat (((bitStr ++ List.replicate pad false).drop 1).take 6) =
        S.length := by
      rw [hshape]
      simp only [List.drop_succ_cons, List.drop_zero]
      rw [List.take_left' hp6]
      exact bitsToNat_padStart_natToBits _ _
    refine ⟨_, _, hser, hexp, fun _ => ⟨hhead, hcount6⟩, fun h => absurd h64 h, hdeser, ?_⟩
    simp only [deserialize, hexp, hdeser]
  · have hn : S.length < 2 ^ 10 := by norm_num; omega
    have hp10 : (padStart (natToBits S.length) 10).length = 10 :=
      padStart_natToBits_length (by norm_num) hn
    set count10 := padStart (natToBits S.length) 10 with hc10def
    set bitStr := (true :: count10) ++ code ++ body with hbsdef
    set pad := (6 - bitStr.length % 6) % 6 with hpaddef
    have hser : serialize S = .ok (toBase64 (bitStr ++ List.replicate pad false)) := by
      apply serialize_eq S hval hcode
      rw [if_neg h64]
    have hshape : bitStr ++ List.replicate pad false =
        true :: (count10 ++ (code ++ (body ++ List.replicate pad false))) := by
      simp [hbsdef, List.append_assoc]
    have hmod : (bitStr ++ List.replicate pad false).length % 6 = 0 := by
      simp only [List.length_append, List.length_replicate]
      omega
    have hexp : expandChars (toBase64 (bitStr ++ List.replicate pad false)) =
        .ok (bitStr ++ List.replicate pad false) := expandChars_toBase64 _ hmod
    have hdeser : deserializeBits (bitStr ++ List.replicate pad false) = .ok S := by
      rw [hshape]
      exact deserializeBits_flag1 S w count10 code body _ hp10 hcodelen hwidth
        (bitsToNat_padStart_natToBits _ _) hw1 hxw hbodydef
    have hhead : (bitStr ++ List.replicate pad false).head? = some true := by
      rw [hshape]
      rfl
    have hcount10 : bitsToNat (((bitStr ++ List.replicate pad false).drop 1).take 10) =
        S.length := by
      rw [hshape]
      simp only [List.drop_succ_cons, List.drop_zero]
      rw [List.take_left' hp10]
      exact bitsToNat_padStart_natToBits _ _
    refine ⟨_, _, hser, hexp, fun h => absurd h h64, fun _ => ⟨hhead, hcount10⟩, hdeser, ?_⟩
    simp only [deserialize, hexp, hdeser]

/-! ### Decode-side bounds and error paths -/

theorem deserializeBits_length_lt {bs : List Bool} {l : List Int}
    (h : deserializeBits bs = .ok l) : l.length < 1024 := by
  unfold deserializeBits at h
  by_cases hh : bs.head? = some false
  · rw [if_pos hh] at h
    cases hw : widthOfCode ((bs.drop 7).take 2) with
    | error e => rw [hw] at h; simp at h
    | ok w =>
        rw [hw] at h
        simp only [Except.ok.injEq] at h
        subst h
        rw [readNumbers_length]
        have h1 := bitsToNat_lt ((bs.drop 1).take 6)
        have h2 : ((bs.drop 1).take 6).length ≤ 6 := List.length_take_le _ _
        have h3 : 2 ^ ((bs.drop 1).take 6).length ≤ 2 ^ 6 :=
          Nat.pow_le_pow_right (by omega) h2
        have h4 : bitsToNat ((bs.drop 1).take 6) < 2 ^ 6 := lt_of_lt_of_le h1 h3
        norm_num at h4
        omega
  · rw [if_neg hh] at h
    cases hw : widthOfCode ((bs.drop 11).take 2) with
    | error e => rw [hw] at h; simp at h
    | ok w =>
        rw [hw] at h
        simp only [Except.ok.injEq] at h
        subst h
        rw [readNumbers_length]
        have h1 := bitsToNat_lt ((bs.drop 1).take 10)
        have h2 : ((bs.drop 1).take 10).length ≤ 10 := List.length_take_le _ _
        have h3 : 2 ^ ((bs.drop 1).take 10).length ≤ 2 ^ 10 :=
          Nat.pow_le_pow_right (by omega) h2
        have h4 : bitsToNat ((bs.drop 1).take 10) < 2 ^ 10 := lt_of_lt_of_le h1 h3
        norm_num at h4
        omega

theorem deserialize_length_lt {s : List Char} {l : List Int}
    (h : deserialize s = .ok l) : l.length < 1024 := by
  unfold deserialize at h
  cases he : expandChars s with
  | error e => rw [he] at h; simp at h
  | ok bits =>
      rw [he] at h
      exact deserializeBits_length_lt h

theorem except_bind_ok {ε α β : Type} {a : Except ε α} {f : α → Except ε β} {b : β}
    (h : (a >>= f) = .ok b) : ∃ x, a = .ok x ∧ f x = .ok b := by
  cases a with
  | error e => simp [Bind.bind, Except.bind] at h
  | ok x => exact ⟨x, rfl, by simpa [Bind.bind, Except.bind] using h⟩

theorem charIndex_eq_none {ch : Char} : ∀ {l : List Char}, ch ∉ l → charIndex ch l = none := by
  intro l
  induction l with
  | nil => intro _; rfl
  | cons c rest ih =>
      intro h
      have hc : ¬ c = ch := by
        intro hc
        subst hc
        exact h (List.mem_cons_self c rest)
      have hr : ch ∉ rest := fun hr => h (List.mem_cons_of_mem c hr)
      simp only [charIndex, if_neg hc, ih hr, Option.map_none']

theorem charIndex_isSome {ch : Char} : ∀ {l : List Char}, ch ∈ l →
    ∃ i, charIndex ch l = some i := by
  intro l
  induction l with
  | nil => intro h; simp at h
  | cons c rest ih =>
      intro h
      by_cases hc : c = ch
      · exact ⟨0, by simp [charIndex, if_pos hc]⟩
      · have hr : ch ∈ rest := by
          rcases List.mem_cons.mp h with rfl | hr
          · exact absurd rfl hc
          · exact hr
        obtain ⟨i, hi⟩ := ih hr
        exact ⟨i + 1, by simp [charIndex, if_neg hc, hi]⟩

theorem expandChars_invalid :
    ∀ s : List Char, (∃ c ∈ s, c ∉ BASE64_CHARS) →
      ∃ c, c ∉ BASE64_CHARS ∧ c ∈ s ∧ expandChars s = .error (.invalidCharacter c) := by
  intro s
  induction s with
  | nil => intro h; simp at h
  | cons a s ih =>
      intro h
      by_cases ha : a ∈ BASE64_CHARS
      · have hs : ∃ c ∈ s, c ∉ BASE64_CHARS := by
          rcases h with ⟨c, hc, hcn⟩
          rcases List.mem_cons.mp hc with rfl | hcs
          · exact absurd ha hcn
          · exact ⟨c, hcs, hcn⟩
        obtain ⟨c, hcn, hcs, herr⟩ := ih hs
        obtain ⟨i, hi⟩ := charIndex_isSome ha
        refine ⟨c, hcn, List.mem_cons_of_mem a hcs, ?_⟩
        simp only [expandChars, hi, herr, Except.map]
      · exact ⟨a, ha, List.mem_cons_self a s,
          by simp only [expandChars, charIndex_eq_none ha]⟩

theorem deserialize_of_expand_error {s : List Char} {e : CodecError}
    (h : expandChars s = .error e) : deserialize s = .error e := by
  simp only [deserialize, h]

theorem serialize_error_iff (l : List Int) :
    serialize l = .error .rangeError ↔ ∃ x ∈ l, x < 1 ∨ 300 < x := by
  constructor
  · intro h
    by_contra hno
    push_neg at hno
    have hval : ∀ x ∈ l, 1 ≤ x ∧ x ≤ 300 := by
      intro x hx
      have := hno x hx
      omega
    obtain ⟨code, hcode, _, _, _⟩ := bitsCodeFor_det l
    rw [serialize_eq l hval hcode _ rfl] at h
    simp at h
  · intro h
    obtain ⟨x, hx, hbad⟩ := h
    have hany : (l.any fun num => decide (num < 1) || decide (300 < num)) = true := by
      simp only [List.any_eq_true]
      refine ⟨x, hx, ?_⟩
      simp only [Bool.or_eq_true, decide_eq_true_eq]
      omega
    simp only [serialize, hany]
    simp

theorem serialize_ne_unsupported (l : List Int) :
    serialize l ≠ .error .unsupportedBits := by
  obtain ⟨code, hcode, _, _, _⟩ := bitsCodeFor_det l
  by_cases hany : (l.any fun num => decide (num < 1) || decide (300 < num)) = true
  · simp only [serialize, hany]
    simp
  · have hany2 : (l.any fun num => decide (num < 1) || decide (300 < num)) = false := by
      simpa using hany
    simp only [serialize, hany2, hcode]
    simp

/-! ### Output length of the encoder -/

theorem body_length (S : List Int) (w : Nat) (hw : 1 ≤ w)
    (hxw : ∀ x ∈ S, x.toNat < 2 ^ w) :
    ((S.map (fun num => padStart (natToBits num.toNat) w)).flatten).length =
      S.length * w := by
  rw [List.length_flatten, List.map_map]
  have hmap : (List.map (List.length ∘ fun num => padStart (natToBits num.toNat) w) S) =
      List.map (Function.const Int w) S := by
    apply List.map_congr_left
    intro x hx
    simp only [Function.comp_apply, Function.const_apply]
    exact padStart_natToBits_length hw (hxw x hx)
  rw [hmap, List.map_const, List.sum_replicate, smul_eq_mul]

theorem serialize_out_length (S : List Int) (hval : ∀ x ∈ S, 1 ≤ x ∧ x ≤ 300) :
    ∃ out, serialize S = .ok out ∧ (∀ c ∈ out, c ∈ BASE64_CHARS) ∧
      (∃ bits, expandChars out = .ok bits ∧ bits.length % 6 = 0) ∧
      out.length =
        ((if S.length < 64 then 7 else 1 + (padStart (natToBits S.length) 10).length) +
          2 + S.length * determineBitsPerNumber S + 5) / 6 := by
  obtain ⟨code, hcode, _, hcodelen, _⟩ := bitsCodeFor_det S
  have hser := serialize_eq S hval hcode _ rfl
  set B := (if S.length < 64 then false :: padStart (natToBits S.length) 6
      else true :: padStart (natToBits S.length) 10) ++ code ++
      (S.map (fun num => padStart (natToBits num.toNat) (determineBitsPerNumber S))).flatten
    with hBdef
  set pad := (6 - B.length % 6) % 6 with hpaddef
  have hmod : (B ++ List.replicate pad false).length % 6 = 0 := by
    simp only [List.length_append, List.length_replicate]
    omega
  have hblen : B.length =
      (if S.length < 64 then 7 else 1 + (padStart (natToBits S.length) 10).length) +
        2 + S.length * determineBitsPerNumber S := by
    rw [hBdef]
    simp only [List.length_append]
    rw [body_length S _ (det_pos S) (elem_lt_pow S hval)]
    by_cases h64 : S.length < 64
    · rw [if_pos h64, if_pos h64]
      have hp6 : (padStart (natToBits S.length) 6).length = 6 :=
        padStart_natToBits_length (by norm_num) (by norm_num; omega)
      simp only [List.length_cons, hp6, hcodelen]
    · rw [if_neg h64, if_neg h64]
      simp only [List.length_cons, hcodelen]
      omega
  refine ⟨_, hser, toBase64_subset _, ⟨_, expandChars_toBase64 _ hmod, hmod⟩, ?_⟩
  rw [toBase64_length _ hmod]
  simp only [List.length_append, List.length_replicate]
  omega

/-! ### Claims -/

/-- Claim C1, counterexample: the round trip does NOT hold for every valid
sequence of length at least 1.  At S = 1024 copies of 1 the encoder succeeds,
but the 10-bit length field cannot hold 1024, so decode can never return a
1024-element result. -/
theorem roundtrip_fails_large :
    ¬ (∀ S : List Int, (∀ x ∈ S, 1 ≤ x ∧ x ≤ 300) → 1 ≤ S.length →
        (serialize S >>= deserialize) = .ok S) := by
  intro h
  have hval : ∀ x ∈ List.replicate 1024 (1 : Int), 1 ≤ x ∧ x ≤ 300 := by
    intro x hx
    rw [List.eq_of_mem_replicate hx]
    norm_num
  have hlen : 1 ≤ (List.replicate 1024 (1 : Int)).length := by
    rw [List.length_replicate]
    omega
  have hrt := h _ hval hlen
  obtain ⟨out, hser, hdes⟩ := except_bind_ok hrt
  have hlt := deserialize_length_lt hdes
  simp only [List.length_replicate] at hlt
  omega

/-- Claim C1 (amended): for every sequence S with all elements in [1, 300]
and 1 ≤ length ≤ 1023, decode(encode(S)) = S — same values, same order,
same length.  (The original claim, with no upper bound on the length, fails
for length ≥ 1024; see the counterexample.) -/
theorem roundtrip_valid (S : List Int) (hval : ∀ x ∈ S, 1 ≤ x ∧ x ≤ 300)
    (_hlen1 : 1 ≤ S.length) (hlen2 : S.length ≤ 1023) :
    (serialize S >>= deserialize) = .ok S := by
  obtain ⟨out, bits, hser, hexp, _, _, _, hdes⟩ := roundtrip_core S hval hlen2
  rw [hser]
  simpa [Bind.bind, Except.bind] using hdes

/-- Witness for C1 (amended) at S = [1, 2, 3]. -/
theorem roundtrip_valid_witness :
    (serialize [1, 2, 3] >>= deserialize) = .ok [(1 : Int), 2, 3] :=
  roundtrip_valid [1, 2, 3] (by decide) (by decide) (by decide)

/-- Claim C2: for every sequence with all elements in [1, 300] and length at
least 1024, encode does not reject the input (it returns a string), but the
header count is misencoded: decode of the result can never have the same
length as S (any successful decode returns fewer than 1024 elements, since
the parsed count is read from at most 10 bits). -/
theorem overflow_length_mismatch (S : List Int) (hval : ∀ x ∈ S, 1 ≤ x ∧ x ≤ 300)
    (hlen : 1024 ≤ S.length) :
    (∃ out, serialize S = .ok out) ∧
      ∀ l, (serialize S >>= deserialize) = .ok l → l.length ≠ S.length := by
  obtain ⟨code, hcode, _, _, _⟩ := bitsCodeFor_det S
  refine ⟨⟨_, serialize_eq S hval hcode _ rfl⟩, ?_⟩
  intro l hl
  obtain ⟨out, hser, hdes⟩ := except_bind_ok hl
  have := deserialize_length_lt hdes
  omega

/-- Witness for C2 at S = 1024 copies of 1. -/
theorem overflow_length_mismatch_witness :
    (∃ out, serialize (List.replicate 1024 (1 : Int)) = .ok out) ∧
      ∀ l, (serialize (List.replicate 1024 (1 : Int)) >>= deserialize) = .ok l →
        l.length ≠ (List.replicate 1024 (1 : Int)).length :=
  overflow_length_mismatch _
    (fun x hx => by rw [List.eq_of_mem_replicate hx]; norm_num)
    (by rw [List.length_replicate])

/-- Claim C3: for every non-empty sequence (i.e. whenever the maximum
exists), the width selector returns 4 if the maximum is below 10, 7 if it is
below 100 and 9 otherwise; the emitted 2-bit width code is always one of
00, 01, 10 (never the reserved 11), and serialize's internal
unsupported-width error branch is unreachable. -/
theorem width_selector_spec :
    (∀ (l : List Int) (m : Int), l.max? = some m →
        determineBitsPerNumber l = if m < 10 then 4 else if m < 100 then 7 else 9) ∧
    (∀ l : List Int, ∃ code, bitsCodeFor (determineBitsPerNumber l) = .ok code ∧
        (code = [false, false] ∨ code = [false, true] ∨ code = [true, false])) ∧
    (∀ l : List Int, serialize l ≠ .error .unsupportedBits) := by
  refine ⟨?_, ?_, serialize_ne_unsupported⟩
  · intro l m hm
    simp [determineBitsPerNumber, hm]
  · intro l
    obtain ⟨code, hcode, _, _, hshape⟩ := bitsCodeFor_det l
    exact ⟨code, hcode, hshape⟩

/-- Witness for C3 at l = [5]. -/
theorem width_selector_spec_witness :
    determineBitsPerNumber [(5 : Int)] = 4 ∧
      serialize [(5 : Int)] ≠ .error .unsupportedBits := by
  have h := width_selector_spec
  constructor
  · have h5 : ([(5 : Int)]).max? = some 5 := by decide
    have := h.1 [(5 : Int)] 5 h5
    simpa using this
  · exact h.2.2 [(5 : Int)]

/-- Claim C4: serialize raises the range error exactly when some element
lies outside [1, 300] (the whole input is rejected and nothing is produced);
in particular serialize [0] and serialize [301] both fail that way. -/
theorem serialize_range_check :
    (∀ l : List Int, serialize l = .error .rangeError ↔ ∃ x ∈ l, x < 1 ∨ 300 < x) ∧
      serialize [(0 : Int)] = .error .rangeError ∧
      serialize [(301 : Int)] = .error .rangeError := by
  refine ⟨serialize_error_iff, ?_, ?_⟩ <;> decide

/-- Claim C5: whenever the decode input contains a character outside the
64-symbol alphabet, deserialize aborts with invalidCharacter identifying
such a character; in particular deserialize "#" fails that way. -/
theorem deserialize_alphabet_check :
    (∀ s : List Char, (∃ c ∈ s, c ∉ BASE64_CHARS) →
      ∃ c, c ∉ BASE64_CHARS ∧ c ∈ s ∧ deserialize s = .error (.invalidCharacter c)) ∧
    deserialize ['#'] = .error (.invalidCharacter '#') := by
  constructor
  · intro s hs
    obtain ⟨c, hcn, hcs, herr⟩ := expandChars_invalid s hs
    exact ⟨c, hcn, hcs, deserialize_of_expand_error herr⟩
  · decide

/-- Witness for C5 at s = "#". -/
theorem deserialize_alphabet_check_witness :
    ∃ c, c ∉ BASE64_CHARS ∧ c ∈ ['#'] ∧
      deserialize ['#'] = .error (.invalidCharacter c) :=
  deserialize_alphabet_check.1 ['#'] ⟨'#', by decide, by decide⟩

/-- Claim C6: the width codes 00, 01, 10 decode to widths 4, 7, 9, and the
reserved code 11 makes the decoder abort with invalidWidthCode — in both
header layouts (6-bit count with the code at bits 7-8, and 10-bit count
with the code at bits 11-12). -/
theorem width_code_check :
    (widthOfCode [false, false] = .ok 4 ∧ widthOfCode [false, true] = .ok 7 ∧
      widthOfCode [true, false] = .ok 9 ∧
      widthOfCode [true, true] = .error .invalidWidthCode) ∧
    (∀ bitStr : List Bool, bitStr.head? = some false →
      (bitStr.drop 7).take 2 = [true, true] →
      deserializeBits bitStr = .error .invalidWidthCode) ∧
    (∀ bitStr : List Bool, ¬ bitStr.head? = some false →
      (bitStr.drop 11).take 2 = [true, true] →
      deserializeBits bitStr = .error .invalidWidthCode) := by
  refine ⟨by decide, ?_, ?_⟩
  · intro bitStr hh hslice
    simp only [deserializeBits, if_pos hh, hslice]
    rfl
  · intro bitStr hh hslice
    simp only [deserializeBits, if_neg hh, hslice]
    rfl

/-- Witness for C6: a 9-bit header with flag 0, count 0 and width code 11. -/
theorem width_code_check_witness :
    deserializeBits [false, false, false, false, false, false, false, true, true] =
      .error .invalidWidthCode :=
  width_code_check.2.1 _ (by decide) (by decide)

/-- Claim C7: a 63-element valid sequence is encoded with length flag 0 and
a 6-bit count field holding 63; a 64-element one with flag 1 and a 10-bit
count field holding 64; in both cases decode recovers the sequence (and so
the correct count). -/
theorem length_field_boundary (S : List Int) (hval : ∀ x ∈ S, 1 ≤ x ∧ x ≤ 300) :
    (S.length = 63 →
      ∃ out bits, serialize S = .ok out ∧ expandChars out = .ok bits ∧
        bits.head? = some false ∧ bitsToNat ((bits.drop 1).take 6) = 63 ∧
        deserialize out = .ok S) ∧
    (S.length = 64 →
      ∃ out bits, serialize S = .ok out ∧ expandChars out = .ok bits ∧
        bits.head? = some true ∧ bitsToNat ((bits.drop 1).take 10) = 64 ∧
        deserialize out = .ok S) := by
  constructor
  · intro h63
    obtain ⟨out, bits, hser, hexp, hflag0, _, _, hdes⟩ :=
      roundtrip_core S hval (by omega)
    have hf := hflag0 (by omega)
    exact ⟨out, bits, hser, hexp, hf.1, by rw [hf.2, h63], hdes⟩
  · intro h64
    obtain ⟨out, bits, hser, hexp, _, hflag1, _, hdes⟩ :=
      roundtrip_core S hval (by omega)
    have hf := hflag1 (by omega)
    exact ⟨out, bits, hser, hexp, hf.1, by rw [hf.2, h64], hdes⟩

/-- Witness for C7 at 63 resp. 64 copies of 2. -/
theorem length_field_boundary_witness :
    (∃ out bits, serialize (List.replicate 63 (2 : Int)) = .ok out ∧
        expandChars out = .ok bits ∧ bits.head? = some false ∧
        bitsToNat ((bits.drop 1).take 6) = 63 ∧
        deserialize out = .ok (List.replicate 63 (2 : Int))) ∧
    (∃ out bits, serialize (List.replicate 64 (2 : Int)) = .ok out ∧
        expandChars out = .ok bits ∧ bits.head? = some true ∧
        bitsToNat ((bits.drop 1).take 10) = 64 ∧
        deserialize out = .ok (List.replicate 64 (2 : Int))) := by
  constructor
  · exact (length_field_boundary _
      (fun x hx => by rw [List.eq_of_mem_replicate hx]; norm_num)).1 (by simp)
  · exact (length_field_boundary _
      (fun x hx => by rw [List.eq_of_mem_replicate hx]; norm_num)).2 (by simp)

/-- Claim C8, counterexample: the character-count formula
ceil(totalBits / 6) with totalBits = 13 + count * width fails for
count = 1025 (the binary count no longer fits in 10 bits, so the real
header is 15 bits, not 13): the encoder emits 1199 characters where the
formula predicts 1198. -/
theorem output_length_formula_fails :
    ∃ out, serialize (List.replicate 1025 (10 : Int)) = .ok out ∧
      out.length ≠
        ((if (List.replicate 1025 (10 : Int)).length < 64 then 9 else 13) +
          (List.replicate 1025 (10 : Int)).length *
            determineBitsPerNumber (List.replicate 1025 (10 : Int)) + 5) / 6 := by
  have hval : ∀ x ∈ List.replicate 1025 (10 : Int), 1 ≤ x ∧ x ≤ 300 := by
    intro x hx
    rw [List.eq_of_mem_replicate hx]
    norm_num
  obtain ⟨out, hser, _, _, hlen⟩ := serialize_out_length _ hval
  refine ⟨out, hser, ?_⟩
  rw [hlen]
  have hdet : determineBitsPerNumber (List.replicate 1025 (10 : Int)) = 7 := by
    unfold determineBitsPerNumber
    rw [show (List.replicate 1025 (10 : Int)).max? = some 10 from
      max?_replicate_succ 1024 10]
    norm_num
  have hL : (List.replicate 1025 (10 : Int)).length = 1025 := by
    rw [List.length_replicate]
  rw [hdet, hL]
  have hp : (padStart (natToBits 1025) 10).length = 11 := by decide
  rw [if_neg (by norm_num), if_neg (by norm_num), hp]
  norm_num

/-- Claim C8 (amended): for every sequence with all elements in [1, 300] the
encoder succeeds, its output uses only alphabet characters, the underlying
bit string has length a multiple of 6, and — provided the count fits the
header, i.e. length ≤ 1023 — the output has exactly
ceil(totalBits / 6) = (totalBits + 5) / 6 characters with
totalBits = (9 if count < 64 else 13) + count * width.  (Without the
length ≤ 1023 restriction the formula fails; see the counterexample.) -/
theorem output_shape (S : List Int) (hval : ∀ x ∈ S, 1 ≤ x ∧ x ≤ 300) :
    ∃ out, serialize S = .ok out ∧ (∀ c ∈ out, c ∈ BASE64_CHARS) ∧
      (∃ bits, expandChars out = .ok bits ∧ bits.length % 6 = 0) ∧
      (S.length ≤ 1023 →
        out.length =
          ((if S.length < 64 then 9 else 13) +
            S.length * determineBitsPerNumber S + 5) / 6) := by
  obtain ⟨out, hser, hsub, hbits, hlen⟩ := serialize_out_length S hval
  refine ⟨out, hser, hsub, hbits, ?_⟩
  intro h1023
  rw [hlen]
  by_cases h64 : S.length < 64
  · rw [if_pos h64, if_pos h64]
  · rw [if_neg h64, if_neg h64]
    have hp10 : (padStart (natToBits S.length) 10).length = 10 :=
      padStart_natToBits_length (by norm_num) (by norm_num; omega)
    rw [hp10]

/-- Witness for C8 (amended) at S = [1, 2, 3]. -/
theorem output_shape_witness :
    ∃ out, serialize [(1 : Int), 2, 3] = .ok out ∧
      (∀ c ∈ out, c ∈ BASE64_CHARS) ∧
      (∃ bits, expandChars out = .ok bits ∧ bits.length % 6 = 0) ∧
      ([(1 : Int), 2, 3].length ≤ 1023 →
        out.length =
          ((if [(1 : Int), 2, 3].length < 64 then 9 else 13) +
            [(1 : Int), 2, 3].length * determineBitsPerNumber [(1 : Int), 2, 3] + 5) / 6) :=
  output_shape _ (by decide)

/-- Claim C9: serialize does not fail on the empty sequence: the width
selector returns 4 (Math.max of no arguments is -Infinity, below every
threshold), the output is the two characters "AA" (header-only bit string,
padded to 12 bits), and decode of it returns the empty sequence. -/
theorem empty_sequence_roundtrip :
    determineBitsPerNumber ([] : List Int) = 4 ∧
      serialize ([] : List Int) = .ok ['A', 'A'] ∧
      deserialize ['A', 'A'] = .ok ([] : List Int) ∧
      (serialize ([] : List Int) >>= deserialize) = .ok ([] : List Int) := by
  refine ⟨rfl, ?_, ?_, ?_⟩ <;> decide

/-- Claim C10: decode validates nothing beyond the alphabet and the width
code: the hand-crafted input "A3/" (header: flag 0, count 1, width code 10,
element bits 111111111) decodes successfully to [511], a value outside
[1, 300]. -/
theorem deserialize_no_range_validation :
    deserialize ['A', '3', '/'] = .ok [(511 : Int)] ∧ ¬ ((511 : Int) ≤ 300) := by
  decide
